import Mathlib

/-!
Verification of the retrieval core of the research-chatbot repository.

The development shallowly embeds the JavaScript source:
* `EmbeddingService.calculateSimilarity` (backend/src/services/embeddings.js),
* `DocumentProcessor.chunkText` / `getOverlapText` (documentProcessor service),
* `VectorStore` (vectorStore service): `addDocument`, `search`, `removeDocument`,
  `getDocumentStats`, `saveToDisk`, `loadFromDisk`.

JS `number` values are modelled as rationals (`ℚ`); the one place real-valued
arithmetic appears is `Math.sqrt`, modelled by `Real.sqrt`, and JS float
division, whose non-finite results (`NaN`, `±Infinity`, produced exactly when
the divisor is zero) are modelled by `Option ℝ` with `none` for a non-finite
outcome.  A JS `Map` is modelled as an insertion-ordered association list:
`set` overwrites in place or appends, `delete` removes the entry with the key,
iteration follows list order, exactly the iteration semantics of `Map`.
-/

namespace ResearchChatbot

/-! ## Definitions -/

/-- Embedding vectors: JS number arrays, entries modelled as rationals. -/
abbrev Vec := List ℚ

/-- The running dot-product accumulator of `calculateSimilarity`:
`dotProduct += embedding1[i] * embedding2[i]` over the common indices. -/
def dotProduct (e1 e2 : Vec) : ℚ :=
  (List.zipWith (fun a b => a * b) e1 e2).sum

/-- The running squared-norm accumulator of `calculateSimilarity`:
`norm1 += embedding1[i] * embedding1[i]`. -/
def sumSq (e : Vec) : ℚ :=
  (List.zipWith (fun a b => a * b) e e).sum

/-- JS floating-point division `a / b`: when the divisor is zero the result is
not a finite number (`0/0 = NaN`, otherwise `±Infinity`), modelled as `none`. -/
noncomputable def jsDiv (a b : ℝ) : Option ℝ :=
  if b = 0 then none else some (a / b)

/-- `EmbeddingService.calculateSimilarity(embedding1, embedding2)`.
The source guard `!embedding1 || !embedding2 || embedding1.length !== embedding2.length`
returns `0`; lists are never null, so only the length test is modelled.
Otherwise the source returns
`dotProduct / (Math.sqrt(norm1) * Math.sqrt(norm2))`. -/
noncomputable def calculateSimilarity (e1 e2 : Vec) : Option ℝ :=
  if e1.length ≠ e2.length then some 0
  else jsDiv ((dotProduct e1 e2 : ℚ) : ℝ)
    (Real.sqrt ((sumSq e1 : ℚ) : ℝ) * Real.sqrt ((sumSq e2 : ℚ) : ℝ))

/-- Decimal digit characters of `n`, most significant first: the reference
characterization of what `Nat.toDigitsCore` (hence `Nat.repr`, hence the JS
template `` `${i}` ``) produces. -/
def repChars (n : Nat) : List Char :=
  if h : n / 10 = 0 then [Nat.digitChar (n % 10)]
  else repChars (n / 10) ++ [Nat.digitChar (n % 10)]
decreasing_by
  exact Nat.div_lt_self (Nat.pos_of_ne_zero fun h0 => h (by simp [h0])) (by norm_num)

/-- The metadata record `addDocument` stores per chunk:
`{documentId, chunkIndex, text}`.  The caller-supplied metadata spread and the
`createdAt` timestamp are opaque to every verified property and are omitted. -/
structure ChunkMeta where
  documentId : String
  chunkIndex : Nat
  text : String
deriving DecidableEq

/-- JS `Map.prototype.set`: overwrite in place if the key is present
(keeping its position in iteration order), otherwise append. -/
def mapSet {β : Type} : List (String × β) → String → β → List (String × β)
  | [], k, v => [(k, v)]
  | (k', v') :: t, k, v =>
    if k' = k then (k, v) :: t else (k', v') :: mapSet t k v

/-- JS `Map.prototype.get`. -/
def mapGet {β : Type} : List (String × β) → String → Option β
  | [], _ => none
  | (k', v') :: t, k => if k' = k then some v' else mapGet t k

/-- JS `Map.prototype.delete` (keys are unique in a real `Map`;
on an arbitrary list this removes every entry with the key). -/
def mapDelete {β : Type} (m : List (String × β)) (k : String) : List (String × β) :=
  m.filter fun e => e.1 ≠ k

/-- Iteration-order key list of a map. -/
def mapKeys {β : Type} (m : List (String × β)) : List String :=
  m.map (·.1)

/-- Rebuilding a map from serialized entries, as in
`Object.fromEntries(map)` and `new Map(Object.entries(obj))`: a later entry
with a duplicate key overwrites the earlier value in place, which is exactly
`mapSet` folded over the entries. -/
def fromEntries {β : Type} (l : List (String × β)) : List (String × β) :=
  l.foldl (fun m e => mapSet m e.1 e.2) []

/-- In-memory `VectorStore` state: `this.vectors` and `this.metadata`. -/
structure VectorStore where
  vectors : List (String × Vec)
  metadata : List (String × ChunkMeta)
deriving DecidableEq

/-- The state of a freshly constructed `VectorStore`. -/
def emptyStore : VectorStore := ⟨[], []⟩

/-- Chunk id template of `addDocument`: `` `${documentId}_chunk_${i}` ``. -/
def chunkId (d : String) (i : Nat) : String :=
  d ++ "_chunk_" ++ Nat.repr i

/-- The body of `addDocument`'s for-loop, iterating over triples
`(i, chunks[i], embeddings[i])`: set the vector and the metadata record under
the chunk id. -/
def addLoop (d : String) : List (Nat × String × Vec) → VectorStore → VectorStore
  | [], st => st
  | (i, c, e) :: rest, st =>
    addLoop d rest
      ⟨mapSet st.vectors (chunkId d i) e,
       mapSet st.metadata (chunkId d i) ⟨d, i, c⟩⟩

/-- The in-memory mutation performed by `addDocument`'s loop
(`for (let i = 0; i < chunks.length; i++) ...`). -/
def addChunks (st : VectorStore) (d : String) (chunks : List String)
    (embs : List Vec) : VectorStore :=
  addLoop d ((List.range chunks.length).zip (chunks.zip embs)) st

/-- Outcome of an `addDocument` call: the returned record, or the rethrown
error of the embedding call or of the persistence write. -/
inductive AddOutcome where
  | ok (documentId : String) (chunksAdded : Nat) (totalVectors : Nat)
  | embeddingError
  | persistenceError
deriving DecidableEq

/-- `VectorStore.addDocument(documentId, chunks, metadata)`.  The call first
awaits `generateBatchEmbeddings` (`embRes = none` models a provider failure or
timeout: the error is rethrown before any mutation), then mutates both maps,
then awaits `saveToDisk` (`saveOk = false` models a persistence write failure:
the error is rethrown, but `this.vectors` and `this.metadata` keep the
mutation).  Returns the in-memory state after the call and the outcome; the
`ok` record carries `chunksAdded = chunks.length` and
`totalVectors = this.vectors.size`. -/
def addDocument (st : VectorStore) (d : String) (chunks : List String)
    (embRes : Option (List Vec)) (saveOk : Bool) : VectorStore × AddOutcome :=
  match embRes with
  | none => (st, .embeddingError)
  | some embs =>
    let st' := addChunks st d chunks embs
    if saveOk then (st', .ok d chunks.length st'.vectors.length)
    else (st', .persistenceError)

/-- `VectorStore.removeDocument(documentId)`: collect into `chunksToRemove`
the chunk ids whose metadata carries this `documentId`, delete each id from
both maps, and return `removedChunks = chunksToRemove.length` (the in-memory
effect; the subsequent `saveToDisk` is modelled by the persistence layer). -/
def removeDocument (st : VectorStore) (d : String) : VectorStore × Nat :=
  let ids := (st.metadata.filter fun e => e.2.documentId = d).map (·.1)
  (⟨ids.foldl mapDelete st.vectors, ids.foldl mapDelete st.metadata⟩, ids.length)

/-- Per-document aggregate of `getDocumentStats`. -/
structure DocStat where
  documentId : String
  chunkCount : Nat
  totalCharacters : Nat
deriving DecidableEq

/-- The aggregate view returned by `getDocumentStats`. -/
structure Stats where
  totalDocuments : Nat
  totalChunks : Nat
  documents : List DocStat
deriving DecidableEq

/-- One step of `getDocumentStats`' per-document accumulation: get-or-create
the document's entry, then `chunkCount++` and
`totalCharacters += metadata.text.length`. -/
def bump (g : String) (o : Option DocStat) (meta : ChunkMeta) : DocStat :=
  let cur := o.getD ⟨g, 0, 0⟩
  ⟨g, cur.chunkCount + 1, cur.totalCharacters + meta.text.length⟩

/-- The `for (const metadata of this.metadata.values())` loop of
`getDocumentStats`, building the `documentStats` map. -/
def statsLoop : List (String × ChunkMeta) → List (String × DocStat) → List (String × DocStat)
  | [], acc => acc
  | (_, meta) :: rest, acc =>
    statsLoop rest
      (mapSet acc meta.documentId (bump meta.documentId (mapGet acc meta.documentId) meta))

/-- `VectorStore.getDocumentStats()`; note `totalChunks := this.vectors.size`
while the per-document aggregates come from `this.metadata`. -/
def getDocumentStats (st : VectorStore) : Stats :=
  let ds := statsLoop st.metadata []
  ⟨ds.length, st.vectors.length, ds.map (·.2)⟩

/-- Parsed content of a persisted artifact file. -/
inductive FileContent where
  | vectorsJson (entries : List (String × Vec))
  | metadataJson (entries : List (String × ChunkMeta))
deriving DecidableEq

/-- A file-system operation: a direct `fs.writeFile`, or a rename/move of a
finished file into place. -/
inductive FsOp where
  | writeFile (path : String) (content : FileContent)
  | rename (src dst : String)
deriving DecidableEq

/-- `path.join(this.storePath, 'vectors.json')`. -/
def vectorsPath (storePath : String) : String := storePath ++ "/" ++ "vectors.json"

/-- `path.join(this.storePath, 'metadata.json')`. -/
def metadataPath (storePath : String) : String := storePath ++ "/" ++ "metadata.json"

/-- The sequence of file-system operations performed by `VectorStore.saveToDisk`:
two direct `fs.writeFile` calls on the primary artifact paths (started
together under `Promise.all`), each writing `JSON.stringify` of
`Object.fromEntries` of the map — abstracted to the entry list the JSON text
encodes. -/
def saveToDiskTrace (storePath : String) (st : VectorStore) : List FsOp :=
  [FsOp.writeFile (vectorsPath storePath) (.vectorsJson (fromEntries st.vectors)),
   FsOp.writeFile (metadataPath storePath) (.metadataJson (fromEntries st.metadata))]

/-- On-disk state: the two artifacts, each absent (`none`) or holding the
parsed serialized map.  An unparseable file is modelled at the step level
(`loadCorrupt`): `loadFromDisk` catches the parse error and resets both maps. -/
structure Disk where
  vectorsFile : Option (List (String × Vec))
  metadataFile : Option (List (String × ChunkMeta))
deriving DecidableEq

/-- The disk before anything was persisted. -/
def emptyDisk : Disk := ⟨none, none⟩

/-- The disk contents after a fully successful `saveToDisk`. -/
def saveToDisk (st : VectorStore) : Disk :=
  ⟨some (fromEntries st.vectors), some (fromEntries st.metadata)⟩

/-- `VectorStore.loadFromDisk` when both reads parse: if both files exist,
replace both maps by `new Map(Object.entries(file))`; if either file is
missing, keep the current maps. -/
def loadFromDisk (disk : Disk) (st : VectorStore) : VectorStore :=
  match disk.vectorsFile, disk.metadataFile with
  | some v, some m => ⟨fromEntries v, fromEntries m⟩
  | _, _ => st

/-- One entry of the `results` array built by `search`. -/
structure SearchResult where
  chunkId : String
  similarity : Option ℝ
  metadata : ChunkMeta
  text : String

/-- The `for (const [chunkId, vector] of this.vectors.entries())` loop of
`search`: look up the chunk's metadata (a missing record makes the source
throw on `metadata.documentId`, modelled as `none` for the whole call), skip
the chunk when a document-id filter is present and does not contain its
document id, otherwise push `{chunkId, similarity, metadata, text}`. -/
noncomputable def collectResults (q : Vec) (filt : Option (List String)) :
    List (String × Vec) → List (String × ChunkMeta) → Option (List SearchResult)
  | [], _ => some []
  | (k, v) :: rest, md =>
    match mapGet md k with
    | none => none
    | some meta =>
      match collectResults q filt rest md with
      | none => none
      | some rs =>
        match filt with
        | some ids =>
          if meta.documentId ∉ ids then some rs
          else some ({ chunkId := k, similarity := calculateSimilarity q v,
                       metadata := meta, text := meta.text } :: rs)
        | none => some ({ chunkId := k, similarity := calculateSimilarity q v,
                          metadata := meta, text := meta.text } :: rs)

/-- The sort key comparison of `results.sort((a, b) => b.similarity - a.similarity)`:
`simLt a b` holds when both are finite and `a < b`; any comparison involving
`NaN` yields a `NaN` comparator value, which ECMAScript `SortCompare` treats
as equality. -/
def simLt (a b : Option ℝ) : Prop :=
  match a, b with
  | some x, some y => x < y
  | _, _ => False

/-- Both similarities finite and the first at least the second: what
"sorted by descending similarity" means for finite keys. -/
def simGe (a b : Option ℝ) : Prop :=
  ∃ x y, a = some x ∧ b = some y ∧ y ≤ x

noncomputable instance : DecidableRel simLt := fun a b =>
  match a, b with
  | some x, some y => (inferInstance : Decidable (x < y))
  | some _, none => isFalse fun h => h
  | none, some _ => isFalse fun h => h
  | none, none => isFalse fun h => h

/-- Stable descending insertion: the inserted element moves ahead of exactly
the elements with strictly smaller similarity, so later elements stay after
equal earlier ones. -/
noncomputable def insDesc (r : SearchResult) : List SearchResult → List SearchResult
  | [] => [r]
  | h :: t => if simLt h.similarity r.similarity then r :: h :: t else h :: insDesc r t

/-- The stable sort of `results.sort((a, b) => b.similarity - a.similarity)`
(ECMAScript `Array.prototype.sort` is stable). -/
noncomputable def sortDesc (l : List SearchResult) : List SearchResult :=
  l.foldl (fun acc r => insDesc r acc) []

/-- `VectorStore.search(queryText, topK, documentIds)` given the embedding of
the query text: collect, sort, `slice(0, topK)`. -/
noncomputable def search (st : VectorStore) (q : Vec) (topK : Nat)
    (filt : Option (List String)) : Option (List SearchResult) :=
  match collectResults q filt st.vectors st.metadata with
  | none => none
  | some rs => some ((sortDesc rs).take topK)

/-- A world: the in-memory store plus the two on-disk artifacts. -/
structure World where
  mem : VectorStore
  disk : Disk
deriving DecidableEq

/-- Lifecycle steps of the vector store as the source executes them.  A save
failure (`addSaveFail`, `removeSaveFail`) rethrows after the in-memory
mutation; its disk effect reflects that the two `fs.writeFile` calls run
independently under `Promise.all`: each artifact is either updated or left as
it was, and at least one write failed.  `load` is `loadFromDisk` with both
files parsing; `loadCorrupt` is its catch branch (unreadable or unparseable
artifact), which resets both in-memory maps. -/
inductive Step : World → World → Prop where
  | addOk (w : World) (d : String) (chunks : List String) (embs : List Vec) :
      chunks.length = embs.length →
      Step w ⟨addChunks w.mem d chunks embs, saveToDisk (addChunks w.mem d chunks embs)⟩
  | addEmbedFail (w : World) : Step w w
  | addSaveFail (w : World) (d : String) (chunks : List String) (embs : List Vec)
      (wroteV wroteM : Bool) :
      chunks.length = embs.length → ¬(wroteV = true ∧ wroteM = true) →
      Step w ⟨addChunks w.mem d chunks embs,
        ⟨if wroteV then some (fromEntries (addChunks w.mem d chunks embs).vectors)
          else w.disk.vectorsFile,
         if wroteM then some (fromEntries (addChunks w.mem d chunks embs).metadata)
          else w.disk.metadataFile⟩⟩
  | removeOk (w : World) (d : String) :
      Step w ⟨(removeDocument w.mem d).1, saveToDisk (removeDocument w.mem d).1⟩
  | removeSaveFail (w : World) (d : String) (wroteV wroteM : Bool) :
      ¬(wroteV = true ∧ wroteM = true) →
      Step w ⟨(removeDocument w.mem d).1,
        ⟨if wroteV then some (fromEntries (removeDocument w.mem d).1.vectors)
          else w.disk.vectorsFile,
         if wroteM then some (fromEntries (removeDocument w.mem d).1.metadata)
          else w.disk.metadataFile⟩⟩
  | load (w : World) : Step w ⟨loadFromDisk w.disk w.mem, w.disk⟩
  | loadCorrupt (w : World) : Step w ⟨emptyStore, w.disk⟩

/-- Worlds reachable from a freshly constructed store with an empty disk. -/
inductive Reach : World → Prop where
  | init : Reach ⟨emptyStore, emptyDisk⟩
  | step {w w' : World} : Reach w → Step w w' → Reach w'

/-- The same lifecycle with atomic persistence failures: a failed `saveToDisk`
leaves both artifacts as they were (no partial write across the two files). -/
inductive AtomicStep : World → World → Prop where
  | addOk (w : World) (d : String) (chunks : List String) (embs : List Vec) :
      chunks.length = embs.length →
      AtomicStep w
        ⟨addChunks w.mem d chunks embs, saveToDisk (addChunks w.mem d chunks embs)⟩
  | addEmbedFail (w : World) : AtomicStep w w
  | addSaveFail (w : World) (d : String) (chunks : List String) (embs : List Vec) :
      chunks.length = embs.length →
      AtomicStep w ⟨addChunks w.mem d chunks embs, w.disk⟩
  | removeOk (w : World) (d : String) :
      AtomicStep w ⟨(removeDocument w.mem d).1, saveToDisk (removeDocument w.mem d).1⟩
  | removeSaveFail (w : World) (d : String) :
      AtomicStep w ⟨(removeDocument w.mem d).1, w.disk⟩
  | load (w : World) : AtomicStep w ⟨loadFromDisk w.disk w.mem, w.disk⟩
  | loadCorrupt (w : World) : AtomicStep w ⟨emptyStore, w.disk⟩

/-- Worlds reachable when every persistence write is atomic across the two
artifacts. -/
inductive ReachAtomic : World → Prop where
  | init : ReachAtomic ⟨emptyStore, emptyDisk⟩
  | step {w w' : World} : ReachAtomic w → AtomicStep w w' → ReachAtomic w'

/-- `[…].join(' ')`. -/
def joinSp : List String → String
  | [] => ""
  | [w] => w
  | w :: rest => w ++ " " ++ joinSp rest

/-- JS whitespace test for the characters that occur here (space, tab,
newline, carriage return). -/
def isWs (c : Char) : Bool := c = ' ' || c = '\t' || c = '\n' || c = '\r'

/-- JS `String.prototype.trim()`: strip leading and trailing whitespace. -/
def trimStr (s : String) : String :=
  String.mk (((s.data.dropWhile isWs).reverse.dropWhile isWs).reverse)

/-- JS `text.split(' ')`: split on every single space character;
`''.split(' ')` is `['']`. -/
def splitChars : List Char → List Char → List String
  | [], acc => [String.mk acc.reverse]
  | c :: rest, acc =>
    if c = ' ' then String.mk acc.reverse :: splitChars rest []
    else splitChars rest (c :: acc)

/-- JS `text.split(' ')`. -/
def splitSp (s : String) : List String := splitChars s.data []

/-- `DocumentProcessor.getOverlapText(text, overlapSize)`:
`words = text.split(' ')`;
`overlapWords = Math.min(Math.floor(overlapSize / 6), words.length)`;
`words.slice(-overlapWords).join(' ')`.  Note `slice(-0)` is `slice(0)`: when
`overlapWords` is `0` the whole word list is returned. -/
def getOverlapText (text : String) (overlapSize : Nat) : String :=
  let words := splitSp text
  let overlapWords := min (overlapSize / 6) words.length
  joinSp (if overlapWords = 0 then words else words.drop (words.length - overlapWords))

/-- The packing loop of `DocumentProcessor.chunkText`: when adding the next
sentence would push `currentSize` past `maxChunkSize` and the current chunk is
nonempty, push the trimmed chunk and seed the next one with
`overlapText + ' ' + sentence`; otherwise append
`(currentChunk ? ' ' : '') + sentence` and add only the sentence length to
`currentSize`.  Returns the pushed chunks and the final `currentChunk`. -/
def packLoop (maxChunkSize overlap : Nat) :
    List String → String → Nat → List String → List String × String
  | [], cur, _, acc => (acc, cur)
  | s :: rest, cur, curSize, acc =>
    if curSize + s.length > maxChunkSize ∧ cur.length > 0 then
      let cur' := getOverlapText cur overlap ++ " " ++ s
      packLoop maxChunkSize overlap rest cur' cur'.length (acc ++ [trimStr cur])
    else
      let cur' := if cur = "" then s else cur ++ " " ++ s
      packLoop maxChunkSize overlap rest cur' (curSize + s.length) acc

/-- `chunkText` before the final length filter: the packed chunks plus the
final `currentChunk` when its trim is nonempty. -/
def packedChunks (sentences : List String) (maxChunkSize overlap : Nat) : List String :=
  let r := packLoop maxChunkSize overlap sentences "" 0 []
  if (trimStr r.2).length > 0 then r.1 ++ [trimStr r.2] else r.1

/-- `DocumentProcessor.chunkText(text, maxChunkSize = 1000, overlap = 200)`
from the sentence list produced by the external `splitIntoSentences`
collaborator: greedy packing, then
`chunks.filter(chunk => chunk.length > 50)`. -/
def chunkTextFromSentences (sentences : List String) (maxChunkSize overlap : Nat) :
    List String :=
  (packedChunks sentences maxChunkSize overlap).filter fun c => c.length > 50

/-- The shape of every `currentChunk` value: a head piece followed by whole
sentences joined by single spaces. -/
def joinChunk (pre : String) (run : List String) : String :=
  run.foldl (fun a s => a ++ " " ++ s) pre

/-- An admissible head piece of a chunk: a whole sentence, or an overlap tail
computed by `getOverlapText`. -/
def PreOk (sentences : List String) (ov : Nat) (pre : String) : Prop :=
  pre ∈ sentences ∨ ∃ prev, pre = getOverlapText prev ov

/-- A chunk that consists of a head piece and whole sentences, in source
order, trimmed: the "never split mid-sentence" shape. -/
def ChunkForm (sentences : List String) (ov : Nat) (c : String) : Prop :=
  ∃ pre run, run.Sublist sentences ∧ PreOk sentences ov pre ∧
    c = trimStr (joinChunk pre run)

/-- The same shape for an in-progress `currentChunk`, with the sentence run
drawn (in order) from the already consumed prefix `C`. -/
def CurForm (sentences : List String) (C : List String) (ov : Nat) (cur : String) : Prop :=
  ∃ pre run, run.Sublist C ∧ PreOk sentences ov pre ∧ cur = joinChunk pre run

/-- The C10 consistency invariant together with what persistence preserves:
the two in-memory maps have the same, duplicate-free key sequence, and the
disk holds either no artifacts or two artifacts with the same, duplicate-free
key sequence. -/
def WorldInv (w : World) : Prop :=
  mapKeys w.mem.vectors = mapKeys w.mem.metadata ∧
  (mapKeys w.mem.vectors).Nodup ∧ (mapKeys w.mem.metadata).Nodup ∧
  ((w.disk.vectorsFile = none ∧ w.disk.metadataFile = none) ∨
    (∃ v m, w.disk.vectorsFile = some v ∧ w.disk.metadataFile = some m ∧
      mapKeys v = mapKeys m ∧ (mapKeys v).Nodup ∧ (mapKeys m).Nodup))

/-! ## Theorems -/

theorem dotProduct_nil (e : Vec) : dotProduct [] e = 0 := rfl

theorem dotProduct_nil_right (e : Vec) : dotProduct e [] = 0 := by
  cases e <;> rfl

theorem dotProduct_cons (a b : ℚ) (t1 t2 : Vec) :
    dotProduct (a :: t1) (b :: t2) = a * b + dotProduct t1 t2 := by
  simp [dotProduct]

theorem sumSq_cons (a : ℚ) (t : Vec) : sumSq (a :: t) = a * a + sumSq t := by
  simp [sumSq]

theorem sumSq_nonneg (e : Vec) : 0 ≤ sumSq e := by
  induction e with
  | nil => simp [sumSq]
  | cons a t ih => rw [sumSq_cons]; nlinarith [mul_self_nonneg a]

/-- Cauchy–Schwarz for the accumulators of `calculateSimilarity`. -/
theorem dotProduct_sq_le (e1 e2 : Vec) :
    dotProduct e1 e2 ^ 2 ≤ sumSq e1 * sumSq e2 := by
  induction e1 generalizing e2 with
  | nil =>
    simp [dotProduct, sumSq]
  | cons a t ih =>
    cases e2 with
    | nil =>
      simp [dotProduct_nil_right, sumSq]
    | cons b t2 =>
      have h := ih t2
      have hp := sumSq_nonneg t
      have hq := sumSq_nonneg t2
      rw [dotProduct_cons, sumSq_cons, sumSq_cons]
      rcases eq_or_lt_of_le hp with hp0 | hp0
      · have hd : dotProduct t t2 = 0 := by
          have h0 : dotProduct t t2 ^ 2 ≤ 0 := by
            calc dotProduct t t2 ^ 2 ≤ sumSq t * sumSq t2 := h
            _ = 0 := by rw [← hp0]; ring
          have := sq_nonneg (dotProduct t t2)
          have hsq : dotProduct t t2 ^ 2 = 0 := le_antisymm h0 this
          exact pow_eq_zero_iff (n := 2) (by norm_num) |>.mp hsq
        rw [hd, ← hp0]
        nlinarith [mul_self_nonneg (a * b), sq_nonneg a, mul_nonneg (mul_self_nonneg a) hq]
      · nlinarith [sq_nonneg (a * dotProduct t t2 - b * sumSq t),
          mul_nonneg (sq_nonneg a) (sub_nonneg.mpr h),
          mul_nonneg hp (sub_nonneg.mpr h), sq_nonneg (a * b)]

/-- The claim of C4 is false at the zero vector: with zero-norm inputs the
source divides by zero and yields `NaN` (modelled `none`), not `0`. -/
theorem calculateSimilarity_zero_norm_nan :
    calculateSimilarity [(0 : ℚ)] [(0 : ℚ)] = none := by
  have h : sumSq [(0 : ℚ)] = 0 := by simp [sumSq]
  simp [calculateSimilarity, jsDiv, h]

/-- C4 (amended): `calculateSimilarity` returns a scalar in `[-1, 1]` whenever
the two vectors have equal dimensionality and both have nonzero norm; it
returns exactly `0` when the dimensionalities differ; but when either vector
has zero norm (at equal dimensionality) it returns `NaN` (no real scalar),
not `0`. -/
theorem calculateSimilarity_spec (e1 e2 : Vec) :
    (e1.length = e2.length → sumSq e1 ≠ 0 → sumSq e2 ≠ 0 →
      ∃ s : ℝ, calculateSimilarity e1 e2 = some s ∧ -1 ≤ s ∧ s ≤ 1) ∧
    (e1.length ≠ e2.length → calculateSimilarity e1 e2 = some 0) ∧
    (e1.length = e2.length → (sumSq e1 = 0 ∨ sumSq e2 = 0) →
      calculateSimilarity e1 e2 = none) := by
  refine ⟨?_, ?_, ?_⟩
  · intro hlen h1 h2
    have hp : (0 : ℚ) < sumSq e1 := lt_of_le_of_ne (sumSq_nonneg e1) (Ne.symm h1)
    have hq : (0 : ℚ) < sumSq e2 := lt_of_le_of_ne (sumSq_nonneg e2) (Ne.symm h2)
    have hpR : (0 : ℝ) < ((sumSq e1 : ℚ) : ℝ) := by exact_mod_cast hp
    have hqR : (0 : ℝ) < ((sumSq e2 : ℚ) : ℝ) := by exact_mod_cast hq
    have hsp : (0 : ℝ) < Real.sqrt ((sumSq e1 : ℚ) : ℝ) := Real.sqrt_pos.mpr hpR
    have hsq : (0 : ℝ) < Real.sqrt ((sumSq e2 : ℚ) : ℝ) := Real.sqrt_pos.mpr hqR
    have hden : (0 : ℝ) < Real.sqrt ((sumSq e1 : ℚ) : ℝ) * Real.sqrt ((sumSq e2 : ℚ) : ℝ) :=
      mul_pos hsp hsq
    have hcs : ((dotProduct e1 e2 : ℚ) : ℝ) ^ 2 ≤
        ((sumSq e1 : ℚ) : ℝ) * ((sumSq e2 : ℚ) : ℝ) := by
      exact_mod_cast dotProduct_sq_le e1 e2
    have habs : |((dotProduct e1 e2 : ℚ) : ℝ)| ≤
        Real.sqrt ((sumSq e1 : ℚ) : ℝ) * Real.sqrt ((sumSq e2 : ℚ) : ℝ) := by
      rw [← Real.sqrt_sq_eq_abs, ← Real.sqrt_mul_self (le_of_lt hden)]
      apply Real.sqrt_le_sqrt
      calc ((dotProduct e1 e2 : ℚ) : ℝ) ^ 2
          ≤ ((sumSq e1 : ℚ) : ℝ) * ((sumSq e2 : ℚ) : ℝ) := hcs
        _ = (Real.sqrt ((sumSq e1 : ℚ) : ℝ) * Real.sqrt ((sumSq e2 : ℚ) : ℝ)) *
            (Real.sqrt ((sumSq e1 : ℚ) : ℝ) * Real.sqrt ((sumSq e2 : ℚ) : ℝ)) := by
            rw [mul_mul_mul_comm, Real.mul_self_sqrt hpR.le, Real.mul_self_sqrt hqR.le]
    refine ⟨((dotProduct e1 e2 : ℚ) : ℝ) /
      (Real.sqrt ((sumSq e1 : ℚ) : ℝ) * Real.sqrt ((sumSq e2 : ℚ) : ℝ)), ?_, ?_, ?_⟩
    · simp only [calculateSimilarity, jsDiv, hlen]
      rw [if_neg (by simp [hlen]), if_neg (ne_of_gt hden)]
    · rw [le_div_iff₀ hden]
      have := abs_le.mp habs
      linarith [this.1]
    · rw [div_le_one hden]
      have := abs_le.mp habs
      linarith [this.2]
  · intro hlen
    simp [calculateSimilarity, hlen]
  · intro hlen hz
    have hzero : Real.sqrt ((sumSq e1 : ℚ) : ℝ) * Real.sqrt ((sumSq e2 : ℚ) : ℝ) = 0 := by
      rcases hz with h | h
      · rw [h]; simp
      · rw [h]; simp
    simp only [calculateSimilarity, jsDiv]
    rw [if_neg (by simp [hlen]), if_pos hzero]

/-- Witness for C4's amended theorem at a concrete input. -/
theorem calculateSimilarity_spec_witness :
    ∃ s : ℝ, calculateSimilarity [(1 : ℚ)] [(1 : ℚ)] = some s ∧ -1 ≤ s ∧ s ≤ 1 :=
  (calculateSimilarity_spec [(1 : ℚ)] [(1 : ℚ)]).1 rfl
    (by simp [sumSq]) (by simp [sumSq])

theorem mapGet_mapSet_self {β : Type} (m : List (String × β)) (k : String) (v : β) :
    mapGet (mapSet m k v) k = some v := by
  induction m with
  | nil => simp [mapSet, mapGet]
  | cons e t ih =>
    obtain ⟨k', v'⟩ := e
    by_cases h : k' = k
    · simp [mapSet, mapGet, h]
    · simp [mapSet, mapGet, h, ih]

theorem mapGet_mapSet_ne {β : Type} (m : List (String × β)) (k k' : String) (v : β)
    (h : k' ≠ k) : mapGet (mapSet m k v) k' = mapGet m k' := by
  induction m with
  | nil =>
    simp only [mapSet, mapGet]
    rw [if_neg (fun hh => h hh.symm)]
  | cons e t ih =>
    obtain ⟨k0, v0⟩ := e
    simp only [mapSet]
    by_cases h0 : k0 = k
    · rw [if_pos h0]
      simp only [mapGet]
      rw [if_neg (fun hh => h hh.symm), if_neg (fun hh => h (hh.symm.trans h0))]
    · rw [if_neg h0]
      simp only [mapGet]
      by_cases h1 : k0 = k'
      · rw [if_pos h1, if_pos h1]
      · rw [if_neg h1, if_neg h1, ih]

theorem mapKeys_mapSet {β : Type} (m : List (String × β)) (k : String) (v : β) :
    mapKeys (mapSet m k v) =
      if k ∈ mapKeys m then mapKeys m else mapKeys m ++ [k] := by
  induction m with
  | nil => simp [mapSet, mapKeys]
  | cons e t ih =>
    obtain ⟨k0, v0⟩ := e
    simp only [mapSet]
    by_cases h0 : k0 = k
    · rw [if_pos h0]
      rw [if_pos (show k ∈ mapKeys ((k0, v0) :: t) by simp [mapKeys, h0.symm])]
      simp [mapKeys, h0]
    · rw [if_neg h0]
      show k0 :: mapKeys (mapSet t k v) =
        if k ∈ mapKeys ((k0, v0) :: t) then mapKeys ((k0, v0) :: t)
        else mapKeys ((k0, v0) :: t) ++ [k]
      rw [ih]
      by_cases hmem : k ∈ mapKeys t
      · rw [if_pos hmem,
          if_pos (show k ∈ mapKeys ((k0, v0) :: t) from List.mem_cons_of_mem _ hmem)]
        rfl
      · rw [if_neg hmem, if_neg (show k ∉ mapKeys ((k0, v0) :: t) by
          intro hh
          rcases List.mem_cons.mp hh with hh1 | hh2
          · exact h0 hh1.symm
          · exact hmem hh2)]
        rfl

theorem nodup_mapKeys_mapSet {β : Type} (m : List (String × β)) (k : String) (v : β)
    (h : (mapKeys m).Nodup) : (mapKeys (mapSet m k v)).Nodup := by
  rw [mapKeys_mapSet]
  by_cases hmem : k ∈ mapKeys m
  · simpa [hmem] using h
  · simp [hmem, List.nodup_append, h]

theorem mapSet_of_not_mem {β : Type} (m : List (String × β)) (k : String) (v : β)
    (h : k ∉ mapKeys m) : mapSet m k v = m ++ [(k, v)] := by
  induction m with
  | nil => simp [mapSet]
  | cons e t ih =>
    obtain ⟨k0, v0⟩ := e
    have hk : k0 ≠ k := fun hk => h (by simp [mapKeys, hk])
    have ht : k ∉ mapKeys t := fun hm => h (by simp [mapKeys] at hm ⊢; exact .inr hm)
    simp [mapSet, hk, ih ht]

theorem foldl_mapSet_of_nodup {β : Type} (l acc : List (String × β))
    (h : (mapKeys (acc ++ l)).Nodup) :
    l.foldl (fun m e => mapSet m e.1 e.2) acc = acc ++ l := by
  induction l generalizing acc with
  | nil => simp
  | cons e t ih =>
    obtain ⟨k, v⟩ := e
    have hnotin : k ∉ mapKeys acc := by
      intro hmem
      have happ : (mapKeys acc ++ mapKeys ((k, v) :: t)).Nodup := by
        simpa [mapKeys, List.map_append] using h
      have hdisj := (List.nodup_append.mp happ).2.2
      exact hdisj hmem (by simp [mapKeys])
    rw [List.foldl_cons]
    have hstep : mapSet acc k v = acc ++ [(k, v)] := mapSet_of_not_mem acc k v hnotin
    rw [hstep]
    have h' : (mapKeys ((acc ++ [(k, v)]) ++ t)).Nodup := by
      simpa [mapKeys, List.append_assoc] using h
    rw [ih (acc ++ [(k, v)]) h']
    simp

theorem fromEntries_of_nodup {β : Type} (l : List (String × β))
    (h : (mapKeys l).Nodup) : fromEntries l = l := by
  have := foldl_mapSet_of_nodup l [] (by simpa using h)
  simpa [fromEntries] using this

theorem mapGet_mapDelete {β : Type} (m : List (String × β)) (a k : String) :
    mapGet (mapDelete m a) k = if k = a then none else mapGet m k := by
  induction m with
  | nil => by_cases hk : k = a <;> simp [mapDelete, mapGet, hk]
  | cons e t ih =>
    obtain ⟨k0, v0⟩ := e
    by_cases h0 : k0 = a
    · have hdrop : mapDelete ((k0, v0) :: t) a = mapDelete t a := by
        simp [mapDelete, List.filter_cons, h0]
      rw [hdrop, ih]
      by_cases hk : k = a
      · simp [hk]
      · have hk0 : ¬ k0 = k := fun hh => hk (hh.symm.trans h0)
        simp [mapGet, hk, hk0]
    · have hkeep : mapDelete ((k0, v0) :: t) a = (k0, v0) :: mapDelete t a := by
        simp [mapDelete, List.filter_cons, h0]
      rw [hkeep]
      by_cases hk : k = a
      · have hk0 : ¬ k0 = k := fun hh => h0 (hh.trans hk)
        rw [hk] at ih ⊢
        simp [mapGet, h0, ih]
      · by_cases h1 : k0 = k
        · simp [mapGet, h1, hk]
        · simp [mapGet, h1, hk, ih]

theorem mapGet_foldl_mapDelete {β : Type} (ids : List String) (m : List (String × β))
    (k : String) :
    mapGet (ids.foldl mapDelete m) k = if k ∈ ids then none else mapGet m k := by
  induction ids generalizing m with
  | nil => simp
  | cons a ids ih =>
    rw [List.foldl_cons, ih]
    by_cases hmem : k ∈ ids
    · simp [hmem]
    · by_cases hk : k = a
      · subst hk; simp [hmem, mapGet_mapDelete]
      · simp [hmem, hk, mapGet_mapDelete]

theorem foldl_mapDelete_eq_filter {β : Type} (ids : List String) (m : List (String × β)) :
    ids.foldl mapDelete m = m.filter fun e => decide (e.1 ∉ ids) := by
  induction ids generalizing m with
  | nil => simp
  | cons a ids ih =>
    rw [List.foldl_cons, ih, mapDelete, List.filter_filter]
    apply List.filter_congr
    intro e _
    by_cases h1 : e.1 ∈ ids <;> by_cases h2 : e.1 = a <;> simp [h1, h2]

theorem eq_of_mem_of_nodup_keys {β : Type} {l : List (String × β)}
    (h : (mapKeys l).Nodup) {e1 e2 : String × β}
    (h1 : e1 ∈ l) (h2 : e2 ∈ l) (hk : e1.1 = e2.1) : e1 = e2 := by
  induction l with
  | nil => cases h1
  | cons e t ih =>
    have hcons := List.nodup_cons.mp (show (e.1 :: mapKeys t).Nodup by
      simpa [mapKeys] using h)
    rcases List.mem_cons.mp h1 with he1 | h1'
    · rcases List.mem_cons.mp h2 with he2 | h2'
      · rw [he1, he2]
      · exfalso
        apply hcons.1
        rw [he1] at hk
        rw [hk]
        exact List.mem_map_of_mem (·.1) h2'
    · rcases List.mem_cons.mp h2 with he2 | h2'
      · exfalso
        apply hcons.1
        rw [he2] at hk
        rw [← hk]
        exact List.mem_map_of_mem (·.1) h1'
      · exact ih hcons.2 h1' h2'

theorem toDigitsCore_eq_repChars :
    ∀ (fuel n : Nat) (acc : List Char), n < fuel →
      Nat.toDigitsCore 10 fuel n acc = repChars n ++ acc := by
  intro fuel
  induction fuel with
  | zero => intro n acc h; omega
  | succ fuel ih =>
    intro n acc h
    by_cases h0 : n / 10 = 0
    · rw [repChars]
      simp [Nat.toDigitsCore, h0]
    · have hlt : n / 10 < fuel := by omega
      rw [repChars]
      simp only [Nat.toDigitsCore, h0, if_false, dif_neg h0]
      rw [ih (n / 10) (Nat.digitChar (n % 10) :: acc) hlt]
      simp

theorem digitChar_inj (a b : Nat) (ha : a < 10) (hb : b < 10)
    (h : Nat.digitChar a = Nat.digitChar b) : a = b := by
  interval_cases a <;> interval_cases b <;> revert h <;> decide

theorem repChars_ne_nil (n : Nat) : repChars n ≠ [] := by
  rw [repChars]
  by_cases h0 : n / 10 = 0 <;> simp [h0]

theorem repChars_eq (n : Nat) :
    repChars n = if n / 10 = 0 then [Nat.digitChar (n % 10)]
      else repChars (n / 10) ++ [Nat.digitChar (n % 10)] := by
  rw [repChars]
  by_cases h : n / 10 = 0 <;> simp [h]

theorem repChars_inj (n : Nat) : ∀ m, repChars n = repChars m → n = m := by
  induction n using Nat.strong_induction_on with
  | _ n ih =>
    intro m h
    by_cases h1 : n / 10 = 0 <;> by_cases h2 : m / 10 = 0
    · rw [repChars_eq n, if_pos h1, repChars_eq m, if_pos h2] at h
      have := digitChar_inj (n % 10) (m % 10)
        (Nat.mod_lt _ (by norm_num)) (Nat.mod_lt _ (by norm_num)) (by simpa using h)
      omega
    · exfalso
      rw [repChars_eq n, if_pos h1, repChars_eq m, if_neg h2] at h
      have hlen := congrArg List.length h
      cases hrep : repChars (m / 10) with
      | nil => exact repChars_ne_nil _ hrep
      | cons c cs =>
        rw [hrep] at hlen
        simp [List.length_append] at hlen
    · exfalso
      rw [repChars_eq n, if_neg h1, repChars_eq m, if_pos h2] at h
      have hlen := congrArg List.length h
      cases hrep : repChars (n / 10) with
      | nil => exact repChars_ne_nil _ hrep
      | cons c cs =>
        rw [hrep] at hlen
        simp [List.length_append] at hlen
    · rw [repChars_eq n, if_neg h1, repChars_eq m, if_neg h2] at h
      have hparts := List.append_inj' h rfl
      have hdiv : n / 10 = m / 10 :=
        ih (n / 10) (Nat.div_lt_self (by omega) (by norm_num)) (m / 10) hparts.1
      have hmod : n % 10 = m % 10 :=
        digitChar_inj (n % 10) (m % 10)
          (Nat.mod_lt _ (by norm_num)) (Nat.mod_lt _ (by norm_num))
          (by simpa using hparts.2)
      omega

theorem natRepr_inj (n m : Nat) (h : Nat.repr n = Nat.repr m) : n = m := by
  have hdata := congrArg String.data h
  have h' : Nat.toDigitsCore 10 (n + 1) n [] = Nat.toDigitsCore 10 (m + 1) m [] := by
    simpa [Nat.repr, Nat.toDigits, List.asString] using hdata
  rw [toDigitsCore_eq_repChars (n + 1) n [] (by omega),
    toDigitsCore_eq_repChars (m + 1) m [] (by omega)] at h'
  simp at h'
  exact repChars_inj n m h'

theorem chunkId_inj_index (d : String) (i j : Nat) (h : chunkId d i = chunkId d j) :
    i = j := by
  have hdata := congrArg String.data h
  simp only [chunkId, String.data_append, List.append_assoc] at hdata
  have h1 := List.append_cancel_left hdata
  have h2 := List.append_cancel_left h1
  exact natRepr_inj i j (by
    apply String.ext
    exact h2)

theorem addLoop_frame (d : String) (l : List (Nat × String × Vec)) (st : VectorStore)
    (k : String) (h : ∀ t ∈ l, chunkId d t.1 ≠ k) :
    mapGet (addLoop d l st).metadata k = mapGet st.metadata k ∧
    mapGet (addLoop d l st).vectors k = mapGet st.vectors k := by
  induction l generalizing st with
  | nil => exact ⟨rfl, rfl⟩
  | cons t rest ih =>
    obtain ⟨i, c, e⟩ := t
    simp only [addLoop]
    have h1 : chunkId d i ≠ k := h (i, c, e) (List.mem_cons_self _ _)
    have hrest := ih ⟨mapSet st.vectors (chunkId d i) e,
        mapSet st.metadata (chunkId d i) ⟨d, i, c⟩⟩
      (fun t ht => h t (List.mem_cons_of_mem _ ht))
    rw [hrest.1, hrest.2]
    constructor
    · exact mapGet_mapSet_ne _ _ _ _ (Ne.symm h1)
    · exact mapGet_mapSet_ne _ _ _ _ (Ne.symm h1)

theorem addLoop_get (d : String) (l : List (Nat × String × Vec)) (st : VectorStore)
    (i : Nat) (c : String) (e : Vec) (hmem : (i, c, e) ∈ l)
    (hnd : (l.map (·.1)).Nodup) :
    mapGet (addLoop d l st).metadata (chunkId d i) = some ⟨d, i, c⟩ ∧
    mapGet (addLoop d l st).vectors (chunkId d i) = some e := by
  induction l generalizing st with
  | nil => cases hmem
  | cons t rest ih =>
    obtain ⟨i', c', e'⟩ := t
    rw [List.map_cons] at hnd
    have hcons := List.nodup_cons.mp hnd
    rcases List.mem_cons.mp hmem with heq | hmem'
    · simp only [Prod.mk.injEq] at heq
      obtain ⟨rfl, rfl, rfl⟩ := heq
      simp only [addLoop]
      have hni : ∀ t ∈ rest, chunkId d t.1 ≠ chunkId d i := by
        intro t ht hch
        have : t.1 = i := chunkId_inj_index d t.1 i hch
        exact hcons.1 (this ▸ List.mem_map_of_mem (·.1) ht)
      have := addLoop_frame d rest
        ⟨mapSet st.vectors (chunkId d i) e, mapSet st.metadata (chunkId d i) ⟨d, i, c⟩⟩
        (chunkId d i) hni
      rw [this.1, this.2, mapGet_mapSet_self, mapGet_mapSet_self]
      exact ⟨rfl, rfl⟩
    · simp only [addLoop]
      exact ih _ hmem' hcons.2

theorem addChunks_frame (st : VectorStore) (d : String) (chunks : List String)
    (embs : List Vec) (k : String) (h : ∀ i, i < chunks.length → k ≠ chunkId d i) :
    mapGet (addChunks st d chunks embs).metadata k = mapGet st.metadata k ∧
    mapGet (addChunks st d chunks embs).vectors k = mapGet st.vectors k := by
  apply addLoop_frame
  intro t ht
  obtain ⟨a, bc⟩ := t
  have ha : a ∈ List.range chunks.length := (List.of_mem_zip ht).1
  exact Ne.symm (h a (List.mem_range.mp ha))

theorem addChunks_get (st : VectorStore) (d : String) (chunks : List String)
    (embs : List Vec) (hlen : chunks.length ≤ embs.length)
    (i : Nat) (c : String) (e : Vec) (hc : chunks[i]? = some c) (he : embs[i]? = some e) :
    mapGet (addChunks st d chunks embs).metadata (chunkId d i) = some ⟨d, i, c⟩ ∧
    mapGet (addChunks st d chunks embs).vectors (chunkId d i) = some e := by
  obtain ⟨hi, hci⟩ := List.getElem?_eq_some.mp hc
  obtain ⟨hie, hei⟩ := List.getElem?_eq_some.mp he
  apply addLoop_get
  · have hlz : i < ((List.range chunks.length).zip (chunks.zip embs)).length := by
      simp only [List.length_zip, List.length_range]
      omega
    have hval : ((List.range chunks.length).zip (chunks.zip embs))[i] = (i, c, e) := by
      rw [List.getElem_zip, List.getElem_zip, List.getElem_range, hci, hei]
    exact hval ▸ List.getElem_mem hlz
  · rw [List.map_fst_zip]
    · exact List.nodup_range _
    · simp only [List.length_zip, List.length_range]
      omega

/-- The claim of C1 is false on the persistence-failure path: `addDocument`
mutates the in-memory maps before `saveToDisk`, so a failed save leaves the
new chunks visible to `stats` while the caller receives the error. -/
theorem addDocument_persistFail_mutates :
    (addDocument emptyStore "D3" ["hello world"] (some [[1]]) false).2 =
      AddOutcome.persistenceError ∧
    getDocumentStats (addDocument emptyStore "D3" ["hello world"] (some [[1]]) false).1 ≠
      getDocumentStats emptyStore := by
  constructor
  · rfl
  · decide

/-- C1 (amended): an `addDocument` that fails at the embedding call leaves the
index state unchanged (identical `stats`, identical everything); but an
`addDocument` that fails at the persistence write reports the error while the
in-memory state keeps the full mutation `addChunks` — the in-memory state
diverges from the persisted state. -/
theorem addDocument_failure_spec (st : VectorStore) (d : String)
    (chunks : List String) (embs : List Vec) (saveOk : Bool) :
    addDocument st d chunks none saveOk = (st, AddOutcome.embeddingError) ∧
    getDocumentStats (addDocument st d chunks none saveOk).1 = getDocumentStats st ∧
    addDocument st d chunks (some embs) false =
      (addChunks st d chunks embs, AddOutcome.persistenceError) :=
  ⟨rfl, rfl, rfl⟩

/-- The claim of C3 is false: re-ingesting document `"d"` (one old chunk
`"aaaa"`) with one new chunk `"bbbb"` does not append a chunk with a fresh
ordinal — the chunk id restarts at ordinal 0, so the old chunk is overwritten
in place and the total chunk count stays 1. -/
theorem addDocument_reingest_overwrites :
    (getDocumentStats (addDocument
        (addDocument emptyStore "d" ["aaaa"] (some [[1]]) true).1
        "d" ["bbbb"] (some [[2]]) true).1).totalChunks = 1 ∧
    mapGet (addDocument
        (addDocument emptyStore "d" ["aaaa"] (some [[1]]) true).1
        "d" ["bbbb"] (some [[2]]) true).1.metadata (chunkId "d" 0) =
      some ⟨"d", 0, "bbbb"⟩ := by
  constructor
  · decide
  · decide

/-- C3 (amended): re-ingesting a document id reuses the chunk ids
`documentId_chunk_0, documentId_chunk_1, …` starting again at ordinal 0,
overwriting in place any existing chunk stored under the same id; every key
not among the re-used ids — including the document's own chunks with ordinals
at or beyond the new chunk count — keeps its previous value. -/
theorem addChunks_reingest_spec (st : VectorStore) (d : String) (chunks : List String)
    (embs : List Vec) (hlen : chunks.length ≤ embs.length) :
    (∀ i c e, chunks[i]? = some c → embs[i]? = some e →
      mapGet (addChunks st d chunks embs).metadata (chunkId d i) = some ⟨d, i, c⟩ ∧
      mapGet (addChunks st d chunks embs).vectors (chunkId d i) = some e) ∧
    (∀ k, (∀ i, i < chunks.length → k ≠ chunkId d i) →
      mapGet (addChunks st d chunks embs).metadata k = mapGet st.metadata k ∧
      mapGet (addChunks st d chunks embs).vectors k = mapGet st.vectors k) :=
  ⟨fun i c e hc he => addChunks_get st d chunks embs hlen i c e hc he,
   fun k hk => addChunks_frame st d chunks embs k hk⟩

/-- Witness for C3's amended theorem: re-ingesting over an existing chunk. -/
theorem addChunks_reingest_spec_witness :
    mapGet (addChunks ⟨[(chunkId "d" 0, [1])],
        [(chunkId "d" 0, ⟨"d", 0, "aaaa"⟩)]⟩ "d" ["bbbb"] [[2]]).metadata (chunkId "d" 0) =
      some ⟨"d", 0, "bbbb"⟩ ∧
    mapGet (addChunks ⟨[(chunkId "d" 0, [1])],
        [(chunkId "d" 0, ⟨"d", 0, "aaaa"⟩)]⟩ "d" ["bbbb"] [[2]]).vectors (chunkId "d" 0) =
      some [2] :=
  (addChunks_reingest_spec ⟨[(chunkId "d" 0, [1])],
    [(chunkId "d" 0, ⟨"d", 0, "aaaa"⟩)]⟩ "d" ["bbbb"] [[2]] (by decide)).1
    0 "bbbb" [2] rfl rfl

theorem statsLoop_get (l : List (String × ChunkMeta)) (acc : List (String × DocStat))
    (g : String) :
    mapGet (statsLoop l acc) g =
      ((l.filter fun e => e.2.documentId = g).map (·.2)).foldl
        (fun o meta => some (bump g o meta)) (mapGet acc g) := by
  induction l generalizing acc with
  | nil => rfl
  | cons e rest ih =>
    obtain ⟨k, meta⟩ := e
    simp only [statsLoop]
    rw [ih]
    by_cases hg : meta.documentId = g
    · rw [List.filter_cons_of_pos (by simpa using hg)]
      simp only [List.map_cons, List.foldl_cons]
      rw [hg, mapGet_mapSet_self]
    · rw [List.filter_cons_of_neg (by simpa using hg)]
      rw [mapGet_mapSet_ne _ _ _ _ (fun hh => hg hh.symm)]

theorem removeDocument_metadata (st : VectorStore) (d : String)
    (hnd : (mapKeys st.metadata).Nodup) :
    (removeDocument st d).1.metadata =
      st.metadata.filter fun e => ¬ e.2.documentId = d := by
  show ((st.metadata.filter fun e => e.2.documentId = d).map (·.1)).foldl
      mapDelete st.metadata = _
  rw [foldl_mapDelete_eq_filter]
  apply List.filter_congr
  intro e he
  simp only [decide_eq_decide]
  constructor
  · intro hnotin hdoc
    exact hnotin (List.mem_map_of_mem (·.1)
      (List.mem_filter.mpr ⟨he, by simpa using hdoc⟩))
  · intro hnot hin
    obtain ⟨e', he', hke⟩ := List.mem_map.mp hin
    have he'f := List.mem_filter.mp he'
    have heq : e' = e := eq_of_mem_of_nodup_keys hnd he'f.1 he hke
    have hd : e'.2.documentId = d := by simpa using he'f.2
    exact hnot (heq ▸ hd)

theorem filter_d_of_removed (st : VectorStore) (d : String)
    (hnd : (mapKeys st.metadata).Nodup) :
    (removeDocument st d).1.metadata.filter (fun e => e.2.documentId = d) = [] := by
  rw [removeDocument_metadata st d hnd, List.filter_filter]
  apply List.filter_eq_nil_iff.mpr
  intro e _
  by_cases h : e.2.documentId = d <;> simp [h]

/-- C9: `removeDocument` removes exactly the chunks whose metadata carries the
document id, returns their count, leaves every other key of the vectors map
and every other document's aggregate in `getDocumentStats` unchanged, shows no
entry (zero chunks) for the removed document, and is idempotent: removing
again yields count 0 and no change. -/
theorem removeDocument_spec (st : VectorStore) (d : String)
    (hnd : (mapKeys st.metadata).Nodup) :
    (removeDocument st d).2 =
      ((st.metadata.filter fun e => e.2.documentId = d).map (·.1)).length ∧
    (removeDocument st d).1.metadata =
      (st.metadata.filter fun e => ¬ e.2.documentId = d) ∧
    (∀ k, k ∈ (st.metadata.filter fun e => e.2.documentId = d).map (·.1) →
      mapGet (removeDocument st d).1.vectors k = none) ∧
    (∀ k, k ∉ (st.metadata.filter fun e => e.2.documentId = d).map (·.1) →
      mapGet (removeDocument st d).1.vectors k = mapGet st.vectors k) ∧
    mapGet (statsLoop (removeDocument st d).1.metadata []) d = none ∧
    (∀ g, g ≠ d → mapGet (statsLoop (removeDocument st d).1.metadata []) g =
      mapGet (statsLoop st.metadata []) g) ∧
    (removeDocument (removeDocument st d).1 d).2 = 0 ∧
    (removeDocument (removeDocument st d).1 d).1 = (removeDocument st d).1 := by
  refine ⟨rfl, removeDocument_metadata st d hnd, ?_, ?_, ?_, ?_, ?_, ?_⟩
  · intro k hk
    show mapGet (((st.metadata.filter fun e => e.2.documentId = d).map (·.1)).foldl
      mapDelete st.vectors) k = none
    rw [mapGet_foldl_mapDelete, if_pos hk]
  · intro k hk
    show mapGet (((st.metadata.filter fun e => e.2.documentId = d).map (·.1)).foldl
      mapDelete st.vectors) k = mapGet st.vectors k
    rw [mapGet_foldl_mapDelete, if_neg hk]
  · rw [statsLoop_get, filter_d_of_removed st d hnd]
    rfl
  · intro g hg
    rw [statsLoop_get, statsLoop_get, removeDocument_metadata st d hnd,
      List.filter_filter]
    have : ∀ e ∈ st.metadata,
        (decide (e.2.documentId = g) && decide (¬ e.2.documentId = d)) =
          decide (e.2.documentId = g) := by
      intro e _
      by_cases h : e.2.documentId = g
      · have : ¬ e.2.documentId = d := fun hh => hg ((h.symm.trans hh))
        simp [h, this, hg]
      · simp [h]
    rw [List.filter_congr this]
  · show ((((removeDocument st d).1.metadata.filter
      fun e => e.2.documentId = d).map (·.1)).length) = 0
    rw [filter_d_of_removed st d hnd]
    rfl
  · have hempty := filter_d_of_removed st d hnd
    show (⟨_, _⟩ : VectorStore) = (removeDocument st d).1
    rw [hempty]
    rfl

/-- Witness for C9 at a concrete two-document store. -/
theorem removeDocument_spec_witness :
    (removeDocument ⟨[(chunkId "a" 0, [1]), (chunkId "b" 0, [2])],
      [(chunkId "a" 0, ⟨"a", 0, "xxxx"⟩), (chunkId "b" 0, ⟨"b", 0, "yyyy"⟩)]⟩ "a").2 =
      (([(chunkId "a" 0, (⟨"a", 0, "xxxx"⟩ : ChunkMeta)),
        (chunkId "b" 0, ⟨"b", 0, "yyyy"⟩)].filter
          fun e => e.2.documentId = "a").map (·.1)).length := by
  have h := removeDocument_spec ⟨[(chunkId "a" 0, [1]), (chunkId "b" 0, [2])],
    [(chunkId "a" 0, ⟨"a", 0, "xxxx"⟩), (chunkId "b" 0, ⟨"b", 0, "yyyy"⟩)]⟩ "a"
    (by decide)
  exact h.1

/-- The claim of C2 is false at any concrete call: the trace of `saveToDisk`
is two direct writes to the primary artifact paths — no write to a temporary
location and no rename/move ever occurs. -/
theorem saveToDisk_no_temp_rename :
    saveToDiskTrace "./data/vectors" emptyStore =
      [FsOp.writeFile (vectorsPath "./data/vectors") (.vectorsJson []),
       FsOp.writeFile (metadataPath "./data/vectors") (.metadataJson [])] := rfl

/-- C2 (amended): every persistence write after a mutating operation performs
exactly two direct `fs.writeFile` calls on the primary artifact paths with
the serialized maps (for duplicate-free keys, exactly the in-memory entries);
there is no temporary file and no rename, so a crash during a write can leave
a half-written primary file. -/
theorem saveToDisk_trace_spec (sp : String) (st : VectorStore) :
    saveToDiskTrace sp st =
      [FsOp.writeFile (vectorsPath sp) (.vectorsJson (fromEntries st.vectors)),
       FsOp.writeFile (metadataPath sp) (.metadataJson (fromEntries st.metadata))] ∧
    ((mapKeys st.vectors).Nodup → (mapKeys st.metadata).Nodup →
      saveToDiskTrace sp st =
        [FsOp.writeFile (vectorsPath sp) (.vectorsJson st.vectors),
         FsOp.writeFile (metadataPath sp) (.metadataJson st.metadata)]) := by
  refine ⟨rfl, fun hv hm => ?_⟩
  rw [saveToDiskTrace, fromEntries_of_nodup st.vectors hv, fromEntries_of_nodup st.metadata hm]

/-- Witness for C2's amended theorem at a concrete store. -/
theorem saveToDisk_trace_spec_witness :
    saveToDiskTrace "sp" ⟨[("k1", [1])], [("k1", ⟨"d", 0, "t"⟩)]⟩ =
      [FsOp.writeFile (vectorsPath "sp") (.vectorsJson [("k1", [1])]),
       FsOp.writeFile (metadataPath "sp") (.metadataJson [("k1", ⟨"d", 0, "t"⟩)])] :=
  (saveToDisk_trace_spec "sp" ⟨[("k1", [1])], [("k1", ⟨"d", 0, "t"⟩)]⟩).2
    (by decide) (by decide)

/-- C7: persist-then-reload is the identity on the observable index state:
loading `saveToDisk`'s artifacts into a fresh store reproduces the store
exactly, hence identical `getDocumentStats` and identical `search` results
for every query. -/
theorem persist_reload_roundtrip (st : VectorStore)
    (hv : (mapKeys st.vectors).Nodup) (hm : (mapKeys st.metadata).Nodup) :
    loadFromDisk (saveToDisk st) emptyStore = st ∧
    getDocumentStats (loadFromDisk (saveToDisk st) emptyStore) = getDocumentStats st ∧
    ∀ q topK filt, search (loadFromDisk (saveToDisk st) emptyStore) q topK filt =
      search st q topK filt := by
  have h1 : loadFromDisk (saveToDisk st) emptyStore = st := by
    show (⟨fromEntries (fromEntries st.vectors),
           fromEntries (fromEntries st.metadata)⟩ : VectorStore) = st
    rw [fromEntries_of_nodup st.vectors hv, fromEntries_of_nodup st.metadata hm,
      fromEntries_of_nodup st.vectors hv, fromEntries_of_nodup st.metadata hm]
  exact ⟨h1, by rw [h1], fun q topK filt => by rw [h1]⟩

/-- Witness for C7 at a concrete one-chunk store. -/
theorem persist_reload_roundtrip_witness :
    loadFromDisk (saveToDisk ⟨[("k1", [1])], [("k1", ⟨"d", 0, "t"⟩)]⟩) emptyStore =
      ⟨[("k1", [1])], [("k1", ⟨"d", 0, "t"⟩)]⟩ :=
  (persist_reload_roundtrip ⟨[("k1", [1])], [("k1", ⟨"d", 0, "t"⟩)]⟩
    (by decide) (by decide)).1

theorem insDesc_perm (r : SearchResult) (l : List SearchResult) :
    (insDesc r l).Perm (r :: l) := by
  induction l with
  | nil => simp [insDesc]
  | cons h t ih =>
    rw [insDesc]
    by_cases hc : simLt h.similarity r.similarity
    · rw [if_pos hc]
    · rw [if_neg hc]
      exact (ih.cons h).trans (List.Perm.swap r h t)

theorem sortDesc_perm_aux (l acc : List SearchResult) :
    (l.foldl (fun a r => insDesc r a) acc).Perm (acc ++ l) := by
  induction l generalizing acc with
  | nil => simp
  | cons r t ih =>
    rw [List.foldl_cons]
    exact (ih (insDesc r acc)).trans
      (((insDesc_perm r acc).append_right t).trans List.perm_middle.symm)

theorem sortDesc_perm (l : List SearchResult) : (sortDesc l).Perm l := by
  simpa using sortDesc_perm_aux l []

theorem insDesc_sorted (r : SearchResult) (acc : List SearchResult)
    (hr : r.similarity.isSome) (hacc : ∀ x ∈ acc, x.similarity.isSome)
    (hs : acc.Pairwise fun a b => simGe a.similarity b.similarity) :
    (insDesc r acc).Pairwise fun a b => simGe a.similarity b.similarity := by
  induction acc with
  | nil => simp [insDesc]
  | cons h t ih =>
    obtain ⟨x, hx⟩ := Option.isSome_iff_exists.mp hr
    obtain ⟨y, hy⟩ := Option.isSome_iff_exists.mp (hacc h (List.mem_cons_self _ _))
    rw [insDesc]
    by_cases hc : simLt h.similarity r.similarity
    · rw [if_pos hc]
      have hyx : y < x := by
        rw [hx, hy] at hc
        exact hc
      refine List.pairwise_cons.mpr ⟨?_, hs⟩
      intro z hz
      rcases List.mem_cons.mp hz with rfl | hzt
      · exact ⟨x, y, hx, hy, le_of_lt hyx⟩
      · obtain ⟨w, hw⟩ := Option.isSome_iff_exists.mp (hacc z (List.mem_cons_of_mem _ hzt))
        have hhz := (List.pairwise_cons.mp hs).1 z hzt
        obtain ⟨y', w', hy', hw', hle⟩ := hhz
        rw [hy] at hy'
        rw [hw] at hw'
        have : w ≤ y := by
          injection hy' with hy2
          injection hw' with hw2
          subst hy2
          subst hw2
          exact hle
        exact ⟨x, w, hx, hw, le_trans this (le_of_lt hyx)⟩
    · rw [if_neg hc]
      refine List.pairwise_cons.mpr ⟨?_, ih (fun z hz => hacc z (List.mem_cons_of_mem _ hz))
        (List.pairwise_cons.mp hs).2⟩
      intro z hz
      have hz' := (insDesc_perm r t).mem_iff.mp hz
      rcases List.mem_cons.mp hz' with rfl | hzt
      · have hxy : x ≤ y := by
          rw [hx, hy] at hc
          simpa [simLt, not_lt] using hc
        exact ⟨y, x, hy, hx, hxy⟩
      · exact (List.pairwise_cons.mp hs).1 z hzt

theorem sortDesc_sorted (l : List SearchResult)
    (h : ∀ x ∈ l, x.similarity.isSome) :
    (sortDesc l).Pairwise fun a b => simGe a.similarity b.similarity := by
  suffices haux : ∀ (l acc : List SearchResult), (∀ x ∈ l, x.similarity.isSome) →
      (∀ x ∈ acc, x.similarity.isSome) →
      acc.Pairwise (fun a b => simGe a.similarity b.similarity) →
      (l.foldl (fun a r => insDesc r a) acc).Pairwise
        fun a b => simGe a.similarity b.similarity by
    exact haux l [] h (by simp) (by simp)
  intro l
  induction l with
  | nil => intro acc _ _ hs; simpa using hs
  | cons r t ih =>
    intro acc hl hacc hs
    rw [List.foldl_cons]
    refine ih (insDesc r acc) (fun x hx => hl x (List.mem_cons_of_mem _ hx)) ?_ ?_
    · intro x hx
      rcases List.mem_cons.mp ((insDesc_perm r acc).mem_iff.mp hx) with rfl | hxa
      · exact hl x (List.mem_cons_self _ _)
      · exact hacc x hxa
    · exact insDesc_sorted r acc (hl r (List.mem_cons_self _ _)) hacc hs

theorem collect_empty_filter (q : Vec) (vecs : List (String × Vec))
    (md : List (String × ChunkMeta)) (rs : List SearchResult)
    (h : collectResults q (some []) vecs md = some rs) : rs = [] := by
  induction vecs generalizing rs with
  | nil =>
    simp only [collectResults, Option.some.injEq] at h
    exact h.symm
  | cons e rest ih =>
    obtain ⟨k, v⟩ := e
    simp only [collectResults] at h
    cases hm : mapGet md k with
    | none =>
      simp only [hm] at h
      exact Option.noConfusion h
    | some meta =>
      simp only [hm] at h
      cases hc : collectResults q (some []) rest md with
      | none =>
        simp only [hc] at h
        exact Option.noConfusion h
      | some rs' =>
        simp only [hc, List.not_mem_nil, not_false_iff, if_true,
          Option.some.injEq] at h
        exact h ▸ ih rs' hc

/-- The claim of C5's tie-break is false: three chunks that all have
similarity `some 0` against the query (dimension mismatch) come back in map
insertion order, with chunk ordinals `0, 1, 0` — not in ascending chunk
ordinal order (`0, 0, 1`) as the claim requires for ties. -/
theorem search_tie_not_ordinal :
    search ⟨[("a0", []), ("a1", []), ("b0", [])],
            [("a0", ⟨"a", 0, "t0"⟩), ("a1", ⟨"a", 1, "t1"⟩), ("b0", ⟨"b", 0, "t2"⟩)]⟩
        [1] 10 none =
      some [⟨"a0", some 0, ⟨"a", 0, "t0"⟩, "t0"⟩,
            ⟨"a1", some 0, ⟨"a", 1, "t1"⟩, "t1"⟩,
            ⟨"b0", some 0, ⟨"b", 0, "t2"⟩, "t2"⟩] := by
  have hsim : calculateSimilarity [1] [] = some 0 := by
    simp [calculateSimilarity]
  simp [search, collectResults, mapGet, hsim, sortDesc, insDesc, simLt, List.take]

/-- C5 (amended): `search` returns at most `topK` results, drawn exactly from
the chunks passing the document-id filter (the collected list `rs`), sorted
by descending similarity when all similarities are finite — with ties kept in
map insertion order (stable sort), not re-ordered by chunk ordinal; an empty
index or a filter matching no chunk yields the empty result, not an error. -/
theorem search_spec (st : VectorStore) (q : Vec) (topK : Nat)
    (filt : Option (List String)) (l rs : List SearchResult)
    (hcol : collectResults q filt st.vectors st.metadata = some rs)
    (hres : search st q topK filt = some l) :
    l.length = min topK rs.length ∧
    (∀ r ∈ l, r ∈ rs) ∧
    ((∀ r ∈ rs, r.similarity.isSome) →
      l.Pairwise fun a b => simGe a.similarity b.similarity) ∧
    (st.vectors = [] → l = []) ∧
    (filt = some [] → l = []) := by
  have hl : l = (sortDesc rs).take topK := by
    simp only [search, hcol] at hres
    exact (Option.some_injective _ hres).symm
  have hperm := sortDesc_perm rs
  refine ⟨?_, ?_, ?_, ?_, ?_⟩
  · rw [hl, List.length_take, hperm.length_eq]
  · intro r hr
    rw [hl] at hr
    exact hperm.mem_iff.mp (List.take_subset _ _ hr)
  · intro hsome
    rw [hl]
    exact (sortDesc_sorted rs hsome).sublist (List.take_sublist _ _)
  · intro hempty
    have hrs : rs = [] := by
      rw [hempty] at hcol
      simp only [collectResults, Option.some.injEq] at hcol
      exact hcol.symm
    rw [hl, hrs]
    simp [sortDesc]
  · intro hfe
    subst hfe
    have hrs := collect_empty_filter q st.vectors st.metadata rs hcol
    rw [hl, hrs]
    simp [sortDesc]

/-- Witness for C5's amended theorem at a one-chunk store. -/
theorem search_spec_witness :
    ([⟨"c0", some 0, ⟨"doc", 0, "tx"⟩, "tx"⟩] : List SearchResult).length =
      min 10 ([⟨"c0", some 0, ⟨"doc", 0, "tx"⟩, "tx"⟩] : List SearchResult).length := by
  have hsim : calculateSimilarity [1] [] = some 0 := by
    simp [calculateSimilarity]
  have hcol : collectResults [1] none [("c0", [])] [("c0", ⟨"doc", 0, "tx"⟩)] =
      some [⟨"c0", some 0, ⟨"doc", 0, "tx"⟩, "tx"⟩] := by
    simp [collectResults, mapGet, hsim]
  have hres : search ⟨[("c0", [])], [("c0", ⟨"doc", 0, "tx"⟩)]⟩ [1] 10 none =
      some [⟨"c0", some 0, ⟨"doc", 0, "tx"⟩, "tx"⟩] := by
    simp only [search, hcol]
    simp [sortDesc, insDesc, List.take]
  exact (search_spec ⟨[("c0", [])], [("c0", ⟨"doc", 0, "tx"⟩)]⟩ [1] 10 none
    _ _ hcol hres).1

theorem fromEntries_nodup_keys {β : Type} (l : List (String × β)) :
    (mapKeys (fromEntries l)).Nodup := by
  suffices haux : ∀ (l acc : List (String × β)), (mapKeys acc).Nodup →
      (mapKeys (l.foldl (fun m e => mapSet m e.1 e.2) acc)).Nodup by
    exact haux l [] (by simp [mapKeys])
  intro l
  induction l with
  | nil => intro acc h; simpa using h
  | cons e t ih =>
    intro acc h
    rw [List.foldl_cons]
    exact ih _ (nodup_mapKeys_mapSet _ _ _ h)

theorem addLoop_keys (d : String) (l : List (Nat × String × Vec)) (st : VectorStore)
    (hk : mapKeys st.vectors = mapKeys st.metadata)
    (hv : (mapKeys st.vectors).Nodup) (hm : (mapKeys st.metadata).Nodup) :
    mapKeys (addLoop d l st).vectors = mapKeys (addLoop d l st).metadata ∧
    (mapKeys (addLoop d l st).vectors).Nodup ∧
    (mapKeys (addLoop d l st).metadata).Nodup := by
  induction l generalizing st with
  | nil => exact ⟨hk, hv, hm⟩
  | cons t rest ih =>
    obtain ⟨i, c, e⟩ := t
    simp only [addLoop]
    apply ih
    · rw [mapKeys_mapSet, mapKeys_mapSet, hk]
    · exact nodup_mapKeys_mapSet _ _ _ hv
    · exact nodup_mapKeys_mapSet _ _ _ hm

theorem mapKeys_mapDelete_congr {β γ : Type} (a : String) (m1 : List (String × β)) :
    ∀ (m2 : List (String × γ)), mapKeys m1 = mapKeys m2 →
      mapKeys (mapDelete m1 a) = mapKeys (mapDelete m2 a) := by
  induction m1 with
  | nil =>
    intro m2 h
    cases m2 with
    | nil => rfl
    | cons e t => simp [mapKeys] at h
  | cons e1 t1 ih =>
    intro m2 h
    cases m2 with
    | nil => simp [mapKeys] at h
    | cons e2 t2 =>
      have hh : e1.1 = e2.1 ∧ mapKeys t1 = mapKeys t2 := by
        simpa [mapKeys] using h
      by_cases hk : e1.1 = a
      · have hdrop1 : mapDelete (e1 :: t1) a = mapDelete t1 a := by
          simp [mapDelete, List.filter_cons, hk]
        have hdrop2 : mapDelete (e2 :: t2) a = mapDelete t2 a := by
          simp [mapDelete, List.filter_cons, hh.1 ▸ hk]
        rw [hdrop1, hdrop2]
        exact ih t2 hh.2
      · have hkeep1 : mapDelete (e1 :: t1) a = e1 :: mapDelete t1 a := by
          simp [mapDelete, List.filter_cons, hk]
        have hkeep2 : mapDelete (e2 :: t2) a = e2 :: mapDelete t2 a := by
          simp [mapDelete, List.filter_cons, hh.1 ▸ hk]
        rw [hkeep1, hkeep2]
        show e1.1 :: mapKeys (mapDelete t1 a) = e2.1 :: mapKeys (mapDelete t2 a)
        rw [hh.1, ih t2 hh.2]

theorem nodup_mapKeys_mapDelete {β : Type} (m : List (String × β)) (a : String)
    (h : (mapKeys m).Nodup) : (mapKeys (mapDelete m a)).Nodup := by
  show (List.map (fun e => e.1) (mapDelete m a)).Nodup
  refine List.Nodup.sublist ?_ (show (List.map (fun e => e.1) m).Nodup from h)
  exact List.Sublist.map (fun e => e.1) (List.filter_sublist m)

theorem mapKeys_foldl_mapDelete_congr {β γ : Type} (ids : List String) :
    ∀ (m1 : List (String × β)) (m2 : List (String × γ)), mapKeys m1 = mapKeys m2 →
      mapKeys (ids.foldl mapDelete m1) = mapKeys (ids.foldl mapDelete m2) := by
  induction ids with
  | nil => intro m1 m2 h; exact h
  | cons a ids ih =>
    intro m1 m2 h
    rw [List.foldl_cons, List.foldl_cons]
    exact ih _ _ (mapKeys_mapDelete_congr a m1 m2 h)

theorem nodup_mapKeys_foldl_mapDelete {β : Type} (ids : List String)
    (m : List (String × β)) (h : (mapKeys m).Nodup) :
    (mapKeys (ids.foldl mapDelete m)).Nodup := by
  induction ids generalizing m with
  | nil => exact h
  | cons a ids ih =>
    rw [List.foldl_cons]
    exact ih _ (nodup_mapKeys_mapDelete m a h)

theorem removeDocument_keys (st : VectorStore) (d : String)
    (hk : mapKeys st.vectors = mapKeys st.metadata)
    (hv : (mapKeys st.vectors).Nodup) (hm : (mapKeys st.metadata).Nodup) :
    mapKeys (removeDocument st d).1.vectors = mapKeys (removeDocument st d).1.metadata ∧
    (mapKeys (removeDocument st d).1.vectors).Nodup ∧
    (mapKeys (removeDocument st d).1.metadata).Nodup :=
  ⟨mapKeys_foldl_mapDelete_congr _ st.vectors st.metadata hk,
   nodup_mapKeys_foldl_mapDelete _ st.vectors hv,
   nodup_mapKeys_foldl_mapDelete _ st.metadata hm⟩

theorem addChunks_keys (st : VectorStore) (d : String) (chunks : List String)
    (embs : List Vec) (hk : mapKeys st.vectors = mapKeys st.metadata)
    (hv : (mapKeys st.vectors).Nodup) (hm : (mapKeys st.metadata).Nodup) :
    mapKeys (addChunks st d chunks embs).vectors =
      mapKeys (addChunks st d chunks embs).metadata ∧
    (mapKeys (addChunks st d chunks embs).vectors).Nodup ∧
    (mapKeys (addChunks st d chunks embs).metadata).Nodup :=
  addLoop_keys d ((List.range chunks.length).zip (chunks.zip embs)) st hk hv hm

theorem atomicStep_inv {w w' : World} (h : WorldInv w) (hs : AtomicStep w w') :
    WorldInv w' := by
  obtain ⟨hk, hv, hm, hdisk⟩ := h
  cases hs with
  | addOk d chunks embs hlen =>
    obtain ⟨hk', hv', hm'⟩ := addChunks_keys w.mem d chunks embs hk hv hm
    refine ⟨hk', hv', hm', .inr ⟨_, _, rfl, rfl, ?_, ?_, ?_⟩⟩
    · rw [fromEntries_of_nodup _ hv', fromEntries_of_nodup _ hm']
      exact hk'
    · rw [fromEntries_of_nodup _ hv']
      exact hv'
    · rw [fromEntries_of_nodup _ hm']
      exact hm'
  | addEmbedFail => exact ⟨hk, hv, hm, hdisk⟩
  | addSaveFail d chunks embs hlen =>
    obtain ⟨hk', hv', hm'⟩ := addChunks_keys w.mem d chunks embs hk hv hm
    exact ⟨hk', hv', hm', hdisk⟩
  | removeOk d =>
    obtain ⟨hk', hv', hm'⟩ := removeDocument_keys w.mem d hk hv hm
    refine ⟨hk', hv', hm', .inr ⟨_, _, rfl, rfl, ?_, ?_, ?_⟩⟩
    · rw [fromEntries_of_nodup _ hv', fromEntries_of_nodup _ hm']
      exact hk'
    · rw [fromEntries_of_nodup _ hv']
      exact hv'
    · rw [fromEntries_of_nodup _ hm']
      exact hm'
  | removeSaveFail d =>
    obtain ⟨hk', hv', hm'⟩ := removeDocument_keys w.mem d hk hv hm
    exact ⟨hk', hv', hm', hdisk⟩
  | load =>
    rcases hdisk with ⟨hn1, hn2⟩ | ⟨v, m, hsv, hsm, hkvm, hnv, hnm⟩
    · have : loadFromDisk w.disk w.mem = w.mem := by
        rw [loadFromDisk, hn1, hn2]
      rw [this]
      exact ⟨hk, hv, hm, .inl ⟨hn1, hn2⟩⟩
    · have : loadFromDisk w.disk w.mem = ⟨fromEntries v, fromEntries m⟩ := by
        rw [loadFromDisk, hsv, hsm]
      rw [this]
      refine ⟨?_, ?_, ?_, .inr ⟨v, m, hsv, hsm, hkvm, hnv, hnm⟩⟩
      · rw [fromEntries_of_nodup _ hnv, fromEntries_of_nodup _ hnm]
        exact hkvm
      · rw [fromEntries_of_nodup _ hnv]
        exact hnv
      · rw [fromEntries_of_nodup _ hnm]
        exact hnm
  | loadCorrupt =>
    exact ⟨rfl, List.nodup_nil, List.nodup_nil, hdisk⟩

/-- The claim of C10 is false for the full lifecycle: after an `addDocument`
whose `Promise.all` persistence write updates `vectors.json` but fails on
`metadata.json` (leaving the previous, still valid `metadata.json`), a
restart's `loadFromDisk` parses both files and installs maps whose key sets
differ — a vector without a metadata record. -/
theorem reach_keys_mismatch :
    Reach ⟨⟨[(chunkId "a" 0, [1]), (chunkId "b" 0, [2])],
            [(chunkId "a" 0, ⟨"a", 0, "x"⟩)]⟩,
           ⟨some [(chunkId "a" 0, [1]), (chunkId "b" 0, [2])],
            some [(chunkId "a" 0, ⟨"a", 0, "x"⟩)]⟩⟩ ∧
    mapKeys [(chunkId "a" 0, ([1] : Vec)), (chunkId "b" 0, [2])] ≠
      mapKeys [(chunkId "a" 0, (⟨"a", 0, "x"⟩ : ChunkMeta))] := by
  constructor
  · have r3 := Reach.step (Reach.step (Reach.step Reach.init
      (Step.addOk ⟨emptyStore, emptyDisk⟩ "a" ["x"] [[1]] rfl))
      (Step.addSaveFail _ "b" ["y"] [[2]] true false rfl (by simp)))
      (Step.load _)
    convert r3 using 1
  · decide

/-- C10 (amended): for every state reachable from the empty index when each
persistence write is atomic across the two artifacts (updates both or
neither), the vectors map and the metadata map hold exactly the same,
duplicate-free sequence of chunk ids. -/
theorem reach_atomic_keys_eq (w : World) (h : ReachAtomic w) :
    mapKeys w.mem.vectors = mapKeys w.mem.metadata ∧
    (mapKeys w.mem.vectors).Nodup := by
  have hinv : WorldInv w := by
    induction h with
    | init => exact ⟨rfl, List.nodup_nil, List.nodup_nil, .inl ⟨rfl, rfl⟩⟩
    | step _ hs ih => exact atomicStep_inv ih hs
  exact ⟨hinv.1, hinv.2.1⟩

/-- Witness for C10's amended theorem after one successful ingestion. -/
theorem reach_atomic_keys_eq_witness :
    mapKeys (addChunks emptyStore "a" ["x"] [[1]]).vectors =
      mapKeys (addChunks emptyStore "a" ["x"] [[1]]).metadata ∧
    (mapKeys (addChunks emptyStore "a" ["x"] [[1]]).vectors).Nodup :=
  reach_atomic_keys_eq
    ⟨addChunks emptyStore "a" ["x"] [[1]],
      saveToDisk (addChunks emptyStore "a" ["x"] [[1]])⟩
    (ReachAtomic.step ReachAtomic.init
      (AtomicStep.addOk ⟨emptyStore, emptyDisk⟩ "a" ["x"] [[1]] rfl))

theorem joinChunk_append (pre : String) (run : List String) (s : String) :
    joinChunk pre (run ++ [s]) = joinChunk pre run ++ " " ++ s := by
  simp [joinChunk, List.foldl_append]

theorem CurForm_mono {S C C' : List String} {ov : Nat} {cur : String}
    (h : CurForm S C ov cur) (hsub : C.Sublist C') : CurForm S C' ov cur := by
  obtain ⟨pre, run, hrun, hpre, hcur⟩ := h
  exact ⟨pre, run, hrun.trans hsub, hpre, hcur⟩

theorem ChunkForm_of_CurForm {S C : List String} {ov : Nat} {cur : String}
    (h : CurForm S C ov cur) (hsub : C.Sublist S) : ChunkForm S ov (trimStr cur) := by
  obtain ⟨pre, run, hrun, hpre, hcur⟩ := h
  exact ⟨pre, run, hrun.trans hsub, hpre, by rw [hcur]⟩

theorem packLoop_forms (maxC ov : Nat) (S : List String) :
    ∀ (rest C : List String) (cur : String) (curSize : Nat) (acc : List String),
      S = C ++ rest →
      (∀ c ∈ acc, ChunkForm S ov c) →
      (cur = "" ∨ CurForm S C ov cur) →
      (∀ c ∈ (packLoop maxC ov rest cur curSize acc).1, ChunkForm S ov c) ∧
      ((packLoop maxC ov rest cur curSize acc).2 = "" ∨
        CurForm S S ov (packLoop maxC ov rest cur curSize acc).2) := by
  intro rest
  induction rest with
  | nil =>
    intro C cur curSize acc hS hacc hcur
    have hCS : C = S := by simpa using hS.symm
    simp only [packLoop]
    refine ⟨hacc, ?_⟩
    rcases hcur with h | h
    · exact .inl h
    · exact .inr (hCS ▸ h)
  | cons s rest ih =>
    intro C cur curSize acc hS hacc hcur
    have hS' : S = (C ++ [s]) ++ rest := by
      rw [hS, List.append_assoc]
      rfl
    have hCsub : C.Sublist S := by
      rw [hS]
      exact List.sublist_append_left C (s :: rest)
    simp only [packLoop]
    by_cases hcond : curSize + s.length > maxC ∧ cur.length > 0
    · rw [if_pos hcond]
      have hcurf : CurForm S C ov cur := by
        rcases hcur with h0 | h
        · rw [h0] at hcond
          simp at hcond
        · exact h
      apply ih (C ++ [s]) _ _ _ hS'
      · intro c hc
        rcases List.mem_append.mp hc with hc1 | hc2
        · exact hacc c hc1
        · have hceq : c = trimStr cur := by simpa using hc2
          rw [hceq]
          exact ChunkForm_of_CurForm hcurf hCsub
      · right
        refine ⟨getOverlapText cur ov, [s], ?_, .inr ⟨cur, rfl⟩, ?_⟩
        · exact List.sublist_append_right C [s]
        · simp [joinChunk]
    · rw [if_neg hcond]
      apply ih (C ++ [s]) _ _ _ hS'
      · exact hacc
      · right
        by_cases hce : cur = ""
        · refine ⟨s, [], List.nil_sublist _, .inl ?_, ?_⟩
          · rw [hS]
            exact List.mem_append.mpr (.inr (List.mem_cons_self _ _))
          · simp [hce, joinChunk]
        · have hcurf : CurForm S C ov cur := by
            rcases hcur with h0 | h
            · exact absurd h0 hce
            · exact h
          obtain ⟨pre, run, hrun, hpre, hc⟩ := hcurf
          refine ⟨pre, run ++ [s], hrun.append (List.Sublist.refl [s]), hpre, ?_⟩
          rw [joinChunk_append, ← hc]
          simp [hce]

/-- The claim of C6 is false: with `maxChunkSize = 60` and sentences of
lengths 40, 25 and 40 — each far below the limit — the output contains a
chunk of length 66 > 60, because the overlap tail of the previous chunk is
glued on without being counted against the limit. -/
theorem chunk_exceeds_maxChunkSize :
    ("aaaaaaaaaaaaaaaaaaaaaaaaaaaaaaaaaaaaaaaa" : String).length = 40 ∧
    ("bbbbbbbbbbbbbbbbbbbbbbbbb" : String).length = 25 ∧
    ("cccccccccccccccccccccccccccccccccccccccc" : String).length = 40 ∧
    ("aaaaaaaaaaaaaaaaaaaaaaaaaaaaaaaaaaaaaaaa bbbbbbbbbbbbbbbbbbbbbbbbb" : String)
      ∈ chunkTextFromSentences
        ["aaaaaaaaaaaaaaaaaaaaaaaaaaaaaaaaaaaaaaaa", "bbbbbbbbbbbbbbbbbbbbbbbbb",
         "cccccccccccccccccccccccccccccccccccccccc"] 60 200 ∧
    ("aaaaaaaaaaaaaaaaaaaaaaaaaaaaaaaaaaaaaaaa bbbbbbbbbbbbbbbbbbbbbbbbb" : String).length
      = 66 := by
  refine ⟨by decide, by decide, by decide, by decide, by decide⟩

/-- C6 (amended): a sentence is never split across chunks — every chunk
emitted by `chunkText` is the trim of a head piece (a whole input sentence or
an overlap tail produced by `getOverlapText`) followed by whole input
sentences in source order, joined by single spaces.  However, a chunk's
length may exceed `maxChunkSize` even when no single sentence does, because
the joining spaces are not counted in `currentSize` and the overlap tail is
prepended without being counted. -/
theorem chunkText_never_splits (sentences : List String) (maxC ov : Nat) :
    ∀ c ∈ chunkTextFromSentences sentences maxC ov, ChunkForm sentences ov c := by
  intro c hc
  have hc' : c ∈ packedChunks sentences maxC ov := (List.mem_filter.mp hc).1
  have h := packLoop_forms maxC ov sentences sentences [] "" 0 []
    (by simp) (by simp) (.inl rfl)
  rw [packedChunks] at hc'
  by_cases hfin : (trimStr (packLoop maxC ov sentences "" 0 []).2).length > 0
  · rw [if_pos hfin] at hc'
    rcases List.mem_append.mp hc' with h1 | h2
    · exact h.1 c h1
    · have hceq : c = trimStr (packLoop maxC ov sentences "" 0 []).2 := by simpa using h2
      rcases h.2 with hnil | hform
      · exfalso
        rw [hnil] at hfin
        exact absurd hfin (by decide)
      · rw [hceq]
        exact ChunkForm_of_CurForm hform (List.Sublist.refl _)
  · rw [if_neg hfin] at hc'
    exact h.1 c hc'

/-- Witness for C6's amended theorem: the single emitted chunk of a
one-sentence input has the never-split shape. -/
theorem chunkText_never_splits_witness :
    ChunkForm ["aaaaaaaaaaaaaaaaaaaaaaaaaaaaaaaaaaaaaaaaaaaaaaaaaaa"] 200
      "aaaaaaaaaaaaaaaaaaaaaaaaaaaaaaaaaaaaaaaaaaaaaaaaaaa" :=
  chunkText_never_splits ["aaaaaaaaaaaaaaaaaaaaaaaaaaaaaaaaaaaaaaaaaaaaaaaaaaa"] 1000 200
    "aaaaaaaaaaaaaaaaaaaaaaaaaaaaaaaaaaaaaaaaaaaaaaaaaaa" (by decide)

/-- The claim of C8 is false at the boundary: a packed chunk of exactly 50
characters is discarded, because the filter keeps only chunks of length
strictly greater than 50. -/
theorem chunk_of_length_50_dropped :
    ("aaaaaaaaaaaaaaaaaaaaaaaaaaaaaaaaaaaaaaaaaaaaaaaaaa" : String).length = 50 ∧
    packedChunks ["aaaaaaaaaaaaaaaaaaaaaaaaaaaaaaaaaaaaaaaaaaaaaaaaaa"] 1000 200 =
      ["aaaaaaaaaaaaaaaaaaaaaaaaaaaaaaaaaaaaaaaaaaaaaaaaaa"] ∧
    chunkTextFromSentences ["aaaaaaaaaaaaaaaaaaaaaaaaaaaaaaaaaaaaaaaaaaaaaaaaaa"]
      1000 200 = [] := by
  refine ⟨by decide, by decide, by decide⟩

/-- C8 (amended): after packing, the output keeps exactly the chunks whose
length is strictly greater than 50 characters; chunks of length at most 50 —
including exactly 50 — are discarded. -/
theorem chunkText_filter_spec (sentences : List String) (maxChunkSize overlap : Nat)
    (c : String) :
    c ∈ chunkTextFromSentences sentences maxChunkSize overlap ↔
      c ∈ packedChunks sentences maxChunkSize overlap ∧ 50 < c.length := by
  simp [chunkTextFromSentences, List.mem_filter]

/-- Witness for C8's amended theorem: a 51-character chunk is kept. -/
theorem chunkText_filter_spec_witness :
    ("aaaaaaaaaaaaaaaaaaaaaaaaaaaaaaaaaaaaaaaaaaaaaaaaaaa" : String) ∈
      chunkTextFromSentences ["aaaaaaaaaaaaaaaaaaaaaaaaaaaaaaaaaaaaaaaaaaaaaaaaaaa"]
        1000 200 :=
  (chunkText_filter_spec ["aaaaaaaaaaaaaaaaaaaaaaaaaaaaaaaaaaaaaaaaaaaaaaaaaaa"] 1000 200
    "aaaaaaaaaaaaaaaaaaaaaaaaaaaaaaaaaaaaaaaaaaaaaaaaaaa").mpr ⟨by decide, by decide⟩

end ResearchChatbot
